import Mathlib

/-!
Shallow embedding of the Phalanx secrets service
(`src/phalanx/services/secrets.py`): the fixed-point secret resolution
algorithm (`_resolve_secrets` / `_resolve_secret`) and the audit
comparison plus report formatting (`audit`), together with theorems
about their behaviour.

Python dictionaries are modelled as association lists in insertion
order: `d[k] = v` keeps the position of an existing key and appends a
new one, a `d[k]` lookup that can raise `KeyError` is modelled with
`Except`, and `del d[k]` removes the entry.  `pydantic.SecretStr` is
modelled as `String`; an optional secret value is `Option String`.
Python truthiness of a `SecretStr | None` value is captured by
`truthy`: `None` is falsy and, because `SecretStr` defines `__len__`,
so is an empty secret string.
-/

namespace Phalanx

/-- Ordered association-list lookup (first entry wins), modelling
`d.get(k)` / `k in d` on a Python dict. -/
def dlookup {α : Type} (k : String) : List (String × α) → Option α
  | [] => none
  | (k', v) :: rest => if k' = k then some v else dlookup k rest

/-- `d[k] = v` on a Python dict: replace in place when the key exists,
append otherwise. -/
def dinsert {α : Type} (k : String) (v : α) : List (String × α) → List (String × α)
  | [] => [(k, v)]
  | (k', v') :: rest =>
    if k' = k then (k, v) :: rest else (k', v') :: dinsert k v rest

/-- `del d[k]` on a Python dict (which holds each key at most once). -/
def dremove {α : Type} (k : String) (l : List (String × α)) : List (String × α) :=
  l.filter (fun e => decide (e.1 ≠ k))

/-- `models/secrets.py` copy rules: the `(application, key)` whose resolved
value is duplicated. -/
structure CopyRules where
  application : String
  key : String

/-- `models/secrets.py` generation rules: an independent generator (no
input), or a derived generator (`SourceSecretGenerateRules`) applying a
function to another secret of the same application. -/
inductive GenerateRules where
  | independent (gen : Unit → String)
  | source (src : String) (gen : String → String)

/-- `models/secrets.py` `Secret`: one declared secret requirement. -/
structure Secret where
  application : String
  key : String
  value : Option String
  copy_rules : Option CopyRules
  generate : Option GenerateRules

/-- `models/secrets.py` `ResolvedSecret`. -/
structure ResolvedSecret where
  application : String
  key : String
  value : Option String
deriving DecidableEq

/-- Python truthiness of a `SecretStr | None` value: `None` and the empty
secret string are falsy (`pydantic.SecretStr` defines `__len__`). -/
def truthy : Option String → Bool
  | none => false
  | some s => !s.isEmpty

/-- `resolved` accumulator: `defaultdict(dict)` keyed by application then
secret key, in insertion order. -/
abbrev ResolvedSet := List (String × List (String × ResolvedSecret))

/-- Current Vault values keyed by application then secret key
(`dict[str, dict[str, SecretStr]]`). -/
abbrev Snapshot := List (String × List (String × String))

/-- `resolved.get(application, {}).get(key)`. -/
def lookupRS (resolved : ResolvedSet) (a k : String) : Option ResolvedSecret :=
  match dlookup a resolved with
  | none => none
  | some inner => dlookup k inner

/-- `resolved[secret.application][secret.key] = secret` on a
`defaultdict(dict)`. -/
def rsInsert (resolved : ResolvedSet) (s : ResolvedSecret) : ResolvedSet :=
  dinsert s.application (dinsert s.key s ((dlookup s.application resolved).getD []))
    resolved

/-- `SecretsService._resolve_secret` (source lines 226-293; the `instance`
parameter is unused by the source body and omitted). -/
def resolve_secret (config : Secret) (resolved : ResolvedSet)
    (current_value : Option String) : Option ResolvedSecret :=
  if truthy config.value then
    some { application := config.application, key := config.key,
           value := config.value }
  else match config.copy_rules with
  | some rules =>
    match lookupRS resolved rules.application rules.key with
    | none => none
    | some other =>
      some { application := config.application, key := config.key,
             value := other.value }
  | none =>
    match config.generate with
    | some g =>
      if truthy current_value then
        some { application := config.application, key := config.key,
               value := current_value }
      else
        match g with
        | .independent gen =>
          some { application := config.application, key := config.key,
                 value := some (gen ()) }
        | .source src gen =>
          match lookupRS resolved config.application src with
          | none => none
          | some other =>
            match other.value with
            | none => none
            | some s =>
              if s.isEmpty then none
              else
                some { application := config.application, key := config.key,
                       value := some (gen s) }
    | none =>
      some { application := config.application, key := config.key,
             value := current_value }

/-- Failures of the embedded code: a Python `KeyError` raised by a plain
dict index, or `UnresolvedSecretsError` carrying the pending list. -/
inductive PyErr where
  | keyError (key : String)
  | unresolvedSecrets (pending : List Secret)

/-- One pass of the fixed-point loop in `_resolve_secrets` (source lines
206-220): try every pending requirement against the resolved set built so
far, collecting failures in order.  The `vault_secrets[config.application]`
plain index (line 210) raises `KeyError` when the application is absent
from the snapshot. -/
def resolvePass (vault : Snapshot) (resolved : ResolvedSet) :
    List Secret → Except PyErr (ResolvedSet × List Secret)
  | [] => .ok (resolved, [])
  | config :: rest =>
    match dlookup config.application vault with
    | none => .error (.keyError config.application)
    | some vault_values =>
      match resolve_secret config resolved (dlookup config.key vault_values) with
      | some s => resolvePass vault (rsInsert resolved s) rest
      | none =>
        match resolvePass vault resolved rest with
        | .ok (r, u) => .ok (r, config :: u)
        | .error e => .error e

/-- The `while unresolved:` fixed-point loop of `_resolve_secrets` (source
lines 202-224).  `fuel` bounds the number of iterations; every executed
iteration strictly shrinks the pending list, so any `fuel > pending.length`
reproduces the loop exactly (`resolve_secrets` passes such a fuel, and the
`fuel = 0` branch is unreachable from it). -/
def resolveLoop (vault : Snapshot) : Nat → ResolvedSet → List Secret →
    Except PyErr ResolvedSet
  | _, resolved, [] => .ok resolved
  | 0, _, pending => .error (.unresolvedSecrets pending)
  | fuel + 1, resolved, pending =>
    match resolvePass vault resolved pending with
    | .error e => .error e
    | .ok (r, u) =>
      if pending.length ≤ u.length then .error (.unresolvedSecrets u)
      else resolveLoop vault fuel r u

/-- `SecretsService._resolve_secrets` (source lines 170-224). -/
def resolve_secrets (secrets : List Secret) (vault : Snapshot) :
    Except PyErr ResolvedSet :=
  resolveLoop vault (secrets.length + 1) [] secrets

/-- `expected` of the audit comparison (source lines 69-72): the revealed
resolved value when truthy, else `None`. -/
def expectedOf (v : Option String) : Option String :=
  if truthy v then v else none

/-- `del vault_secrets[a][k]`: the snapshot keeps the application entry
(possibly emptied) and loses the key.  The source mutates the single entry
of the dict; mapping over all equal-keyed entries coincides with that for
the duplicate-free association lists that model dicts. -/
def consume (a k : String) : Snapshot → Snapshot
  | [] => []
  | e :: rest => (if e.1 = a then (e.1, dremove k e.2) else e) :: consume a k rest

/-- Accumulator of the audit comparison loop: the `missing` and `mismatch`
lists, the arguments `(expected, vault)` of every
`logging.error("mismatch %s %s", expected, vault)` call (source line 77),
and the working snapshot mapping being consumed in place. -/
structure AuditAcc where
  missing : List String
  mismatch : List String
  log : List (Option String × String)
  w : Snapshot
deriving DecidableEq

/-- Body of the audit comparison loop for one resolved
`(app_name, key, value.value)` triple (source lines 68-81).  The
`vault_secrets[app_name]` plain index raises `KeyError` when the
application is absent. -/
def auditStep (acc : AuditAcc) (t : String × String × Option String) :
    Except PyErr AuditAcc :=
  match dlookup t.1 acc.w with
  | none => .error (.keyError t.1)
  | some inner =>
    match dlookup t.2.1 inner with
    | some stored =>
      let expected := expectedOf t.2.2
      let acc' :=
        if expected ≠ some stored then
          { acc with
            mismatch := acc.mismatch ++ [t.1 ++ " " ++ t.2.1],
            log := acc.log ++ [(expected, stored)] }
        else acc
      .ok { acc' with w := consume t.1 t.2.1 acc'.w }
    | none =>
      .ok { acc with missing := acc.missing ++ [t.1 ++ " " ++ t.2.1] }

/-- The audit comparison loop over all resolved triples. -/
def auditGo (acc : AuditAcc) : List (String × String × Option String) →
    Except PyErr AuditAcc
  | [] => .ok acc
  | t :: ts =>
    match auditStep acc t with
    | .error e => .error e
    | .ok acc' => auditGo acc' ts

/-- The nested iteration `for app_name, values in resolved.items(): for
key, value in values.items()` as a flat list of
`(app_name, key, value.value)` triples, in iteration order. -/
def flattenRS (resolved : ResolvedSet) : List (String × String × Option String) :=
  resolved.flatMap (fun e => e.2.map (fun kv => (e.1, kv.1, kv.2.value)))

/-- The `(application, key)` pairs of a snapshot, in iteration order. -/
def flattenSnap (w : Snapshot) : List (String × String) :=
  w.flatMap (fun e => e.2.map (fun kv => (e.1, kv.1)))

/-- Result of the audit comparison (source lines 63-82): the three
category lists, the logged `(expected, vault)` pairs, and the final state
of the snapshot mapping the comparison consumed. -/
structure AuditOutcome where
  missing : List String
  mismatch : List String
  unknown : List String
  log : List (Option String × String)
  vaultAfter : Snapshot
deriving DecidableEq

/-- The audit comparison, `audit` source lines 63-82: classify each
resolved secret against the snapshot, consuming matched entries from the
snapshot mapping itself (the source takes no copy), then list every
remaining snapshot entry as unknown. -/
def auditCore (resolved : ResolvedSet) (vault : Snapshot) :
    Except PyErr AuditOutcome :=
  match auditGo ⟨[], [], [], vault⟩ (flattenRS resolved) with
  | .error e => .error e
  | .ok acc =>
    .ok { missing := acc.missing, mismatch := acc.mismatch,
          unknown := (flattenSnap acc.w).map (fun p => p.1 ++ " " ++ p.2),
          log := acc.log, vaultAfter := acc.w }

/-- Python `sep.join(items)`. -/
def pyJoin (sep : String) : List String → String
  | [] => ""
  | [x] => x
  | x :: xs => x ++ sep ++ pyJoin sep xs

/-- Report rendering, `audit` source lines 84-93.  Note that the source
joins the unknown entries with `"\n  "` (line 91), not `"\n• "`. -/
def formatReport (missing mismatch unknown : List String) : String :=
  let report := ""
  let report := if missing.isEmpty then report
    else report ++ "Missing secrets:\n• " ++ pyJoin "\n• " missing ++ "\n"
  let report := if mismatch.isEmpty then report
    else report ++ "Incorrect secrets:\n• " ++ pyJoin "\n• " mismatch ++ "\n"
  if unknown.isEmpty then report
  else report ++ "Unknown secrets in Vault:\n• " ++ pyJoin "\n  " unknown ++ "\n"

/-- `SecretsService.audit` (source lines 40-93) with the environment and
Vault I/O replaced by its two data inputs: resolve all secrets, run the
comparison, render the report. -/
def audit (secrets : List Secret) (vault : Snapshot) : Except PyErr String :=
  match resolve_secrets secrets vault with
  | .error e => .error e
  | .ok resolved =>
    match auditCore resolved vault with
    | .error e => .error e
    | .ok o => .ok (formatReport o.missing o.mismatch o.unknown)

/-! Derived views of the audit comparison, used to state what the loop
computes: the classification of each resolved triple and of each leftover
snapshot entry, read off the source's branches. -/

/-- Joint lookup `vault.get(a, {}).get(k)` seen as a total function (the
source's `vault_secrets[a]` raises instead when `a` is absent; this view
is only used to state classifications, with the application's presence a
separate hypothesis). -/
def vaultLookup2 (vault : Snapshot) (a k : String) : Option String :=
  match dlookup a vault with
  | none => none
  | some inner => dlookup k inner

/-- The `(application, key)` pairs of the resolved set, in iteration
order. -/
def resolvedPairs (resolved : ResolvedSet) : List (String × String) :=
  (flattenRS resolved).map (fun t => (t.1, t.2.1))

/-- Render `f"{application} {key}"`. -/
def renderPair (a k : String) : String := a ++ " " ++ k

/-- Classification of one resolved triple as mismatched: its key is in
the snapshot and `expected != vault` (source line 74). -/
def mismatchCond (vault : Snapshot) (t : String × String × Option String) : Bool :=
  match vaultLookup2 vault t.1 t.2.1 with
  | none => false
  | some stored => decide (expectedOf t.2.2 ≠ some stored)

/-- The `missing` list the audit comparison builds: resolved entries whose
key is absent from the snapshot, in resolution order. -/
def missingOf (resolved : ResolvedSet) (vault : Snapshot) : List String :=
  ((flattenRS resolved).filter (fun t => (vaultLookup2 vault t.1 t.2.1).isNone)).map
    (fun t => renderPair t.1 t.2.1)

/-- The `mismatch` list the audit comparison builds, in resolution
order. -/
def mismatchedOf (resolved : ResolvedSet) (vault : Snapshot) : List String :=
  ((flattenRS resolved).filter (mismatchCond vault)).map (fun t => renderPair t.1 t.2.1)

/-- The logged `(expected, vault)` pairs, one per mismatch, in resolution
order. -/
def logOf (resolved : ResolvedSet) (vault : Snapshot) : List (Option String × String) :=
  ((flattenRS resolved).filter (mismatchCond vault)).map
    (fun t => (expectedOf t.2.2, (vaultLookup2 vault t.1 t.2.1).getD ""))

/-- The snapshot after the audit comparison consumed every resolved key it
found: each application keeps its entry, minus the keys that appear in the
resolved set. -/
def consumedAll (resolved : ResolvedSet) (w : Snapshot) : Snapshot :=
  w.map (fun e => (e.1, e.2.filter (fun kv => decide ((e.1, kv.1) ∉ resolvedPairs resolved))))

/-- The `unknown` list: snapshot entries never consumed, in snapshot
order. -/
def unknownOf (resolved : ResolvedSet) (vault : Snapshot) : List String :=
  ((flattenSnap vault).filter (fun p => decide (p ∉ resolvedPairs resolved))).map
    (fun p => renderPair p.1 p.2)

/-- Mismatch classification as claim C2 words it: the resolved value (or
its absence) compared to the stored value by exact equality of the
revealed value, with no special treatment of empty strings. -/
def mismatchedByRevealedEquality (resolved : ResolvedSet) (vault : Snapshot) :
    List String :=
  ((flattenRS resolved).filter
    (fun t => match vaultLookup2 vault t.1 t.2.1 with
      | none => false
      | some stored => decide (t.2.2 ≠ some stored))).map
    (fun t => renderPair t.1 t.2.1)

/-! Well-formedness predicates.  A Python dict holds each key at most
once; these record that invariant for the association lists modelling
them, plus the data-model invariant that a key is unique within an
application. -/

/-- The `(application, key)` pairs of a requirement list are pairwise
distinct (spec §3: `key` is unique within an application). -/
def pairsNodup (reqs : List Secret) : Prop :=
  (reqs.map (fun s => (s.application, s.key))).Nodup

/-- Every requirement's application has an entry in the snapshot (what the
source's plain `vault_secrets[config.application]` index needs in order
not to raise). -/
def appsCovered (reqs : List Secret) (vault : Snapshot) : Prop :=
  ∀ req ∈ reqs, (dlookup req.application vault).isSome = true

/-- Dict well-formedness of a snapshot: outer and inner keys are
duplicate-free. -/
def snapWF (w : Snapshot) : Prop :=
  (w.map Prod.fst).Nodup ∧ ∀ e ∈ w, (e.2.map Prod.fst).Nodup

/-- Dict well-formedness of a resolved set, plus the construction
invariant that each stored `ResolvedSecret` sits at its own
`(application, key)` position. -/
def rsWF (R : ResolvedSet) : Prop :=
  (R.map Prod.fst).Nodup ∧ (∀ e ∈ R, (e.2.map Prod.fst).Nodup)
    ∧ ∀ e ∈ R, ∀ kv ∈ e.2, kv.2.application = e.1 ∧ kv.2.key = kv.1

/-! Canonical per-requirement evaluation.  `evalReq vault reqs n config`
follows the single dependency a requirement can have (`copyFrom` or a
derived generator's source) through the requirement list itself, with
`n` bounding the chain length; it is the order-independent description of
what the fixed-point loop computes, used to relate two runs of
`resolve_secrets` on permuted requirement lists. -/

/-- The unique requirement with the given `(application, key)`, when the
pairs are duplicate-free. -/
def findReq (reqs : List Secret) (a k : String) : Option Secret :=
  reqs.find? (fun s => decide (s.application = a ∧ s.key = k))

/-- Canonical value of a requirement: `some v` when it resolves with value
`v` along a dependency chain of length less than the fuel, `none`
otherwise. -/
def evalReq (vault : Snapshot) (reqs : List Secret) : Nat → Secret → Option (Option String)
  | 0, _ => none
  | n + 1, config =>
    if truthy config.value then some config.value
    else match config.copy_rules with
    | some rules =>
      match findReq reqs rules.application rules.key with
      | none => none
      | some src => evalReq vault reqs n src
    | none =>
      match config.generate with
      | some g =>
        if truthy (vaultLookup2 vault config.application config.key) then
          some (vaultLookup2 vault config.application config.key)
        else match g with
        | .independent gen => some (some (gen ()))
        | .source srcKey gen =>
          match findReq reqs config.application srcKey with
          | none => none
          | some src =>
            match evalReq vault reqs n src with
            | some (some s) => if s.isEmpty then none else some (some (gen s))
            | _ => none
      | none => some (vaultLookup2 vault config.application config.key)

/-- Invariant tying the fixed-point loop accumulator to the canonical
evaluation: the accumulator is a well-formed dict of dicts, and every
entry sits at its own `(application, key)` with the canonical value of
the unique requirement bearing that pair. -/
def rsInv (vault : Snapshot) (reqs : List Secret) (R : ResolvedSet) : Prop :=
  rsWF R ∧ ∀ a k s, lookupRS R a k = some s → s.application = a ∧ s.key = k ∧
    ∃ n req, req ∈ reqs ∧ req.application = a ∧ req.key = k ∧
      evalReq vault reqs n req = some s.value

/-! Concrete inputs used by the examples in the claims. -/

/-- Requirement `A.x copyFrom B.y` of the cycle example. -/
def cycleAx : Secret := ⟨"A", "x", none, some ⟨"B", "y"⟩, none⟩

/-- Requirement `B.y copyFrom A.x` of the cycle example. -/
def cycleBy : Secret := ⟨"B", "y", none, some ⟨"A", "x"⟩, none⟩

/-- Snapshot with (empty) entries for applications `A` and `B`. -/
def twoAppVault : Snapshot := [("A", []), ("B", [])]

/-- A requirement with both a static value and copy rules. -/
def staticCopyCfg : Secret := ⟨"A", "x", some "v", some ⟨"B", "y"⟩, none⟩

/-- `A.seed staticValue "s"`. -/
def seedReq : Secret := ⟨"A", "seed", some "s", none, none⟩

/-- Uppercase on the character list (the kernel-computable equivalent of
`str.upper` for the example's ASCII inputs). -/
def upperFn (s : String) : String := String.mk (s.data.map Char.toUpper)

/-- `A.hash generate derived from A.seed` with `function = uppercase`. -/
def hashReq : Secret := ⟨"A", "hash", none, none, some (.source "seed" upperFn)⟩

/-- Snapshot with an (empty) entry for application `A` only. -/
def oneAppVault : Snapshot := [("A", [])]

/-- An independent generate requirement. -/
def genTokCfg : Secret := ⟨"G", "tok", none, none, some (.independent (fun _ => "fresh"))⟩

/-- Resolved set `{svc: {token: "abc"}}`. -/
def svcResolved : ResolvedSet := [("svc", [("token", ⟨"svc", "token", some "abc"⟩)])]

/-- Snapshot `{svc: {token: "xyz", legacy: "old"}}`. -/
def svcSnapshot : Snapshot := [("svc", [("token", "xyz"), ("legacy", "old")])]

/-- Requirement `svc.token staticValue "abc"`. -/
def svcStaticReq : Secret := ⟨"svc", "token", some "abc", none, none⟩

/-- What the audit comparison produces on `svcResolved` versus
`svcSnapshot`. -/
def svcOutcome : AuditOutcome :=
  ⟨[], ["svc token"], ["svc legacy"], [(some "abc", "xyz")], [("svc", [("legacy", "old")])]⟩

/-- Resolved set `{app: {k: "new"}}` for the frame-effect example. -/
def frameResolved : ResolvedSet := [("app", [("k", ⟨"app", "k", some "new"⟩)])]

/-- Snapshot `{app: {k: "oldv"}}` for the frame-effect example. -/
def frameSnapshot : Snapshot := [("app", [("k", "oldv")])]

/-- What the audit comparison produces on `frameResolved` versus
`frameSnapshot`: the consumed key is deleted from the snapshot mapping and
the revealed values are logged. -/
def frameOutcome : AuditOutcome :=
  ⟨[], ["app k"], [], [(some "new", "oldv")], [("app", [])]⟩

/-- `A.x staticValue "v1"` of the permutation example. -/
def permAx : Secret := ⟨"A", "x", some "v1", none, none⟩

/-- `B.y staticValue "v2"` of the permutation example. -/
def permBy : Secret := ⟨"B", "y", some "v2", none, none⟩

/-- `A.x staticValue "v"` of the forward-reference example. -/
def fwdStatic : Secret := ⟨"A", "x", some "v", none, none⟩

/-- `B.y copyFrom A.x` of the forward-reference example. -/
def fwdCopy : Secret := ⟨"B", "y", none, some ⟨"A", "x"⟩, none⟩

/-- Resolved set produced by the forward-reference example in either
requirement order. -/
def fwdResolved : ResolvedSet :=
  [("A", [("x", ⟨"A", "x", some "v"⟩)]), ("B", [("y", ⟨"B", "y", some "v"⟩)])]

/-- Resolved set whose secret value is the empty string. -/
def emptyValResolved : ResolvedSet := [("svc", [("token", ⟨"svc", "token", some ""⟩)])]

/-- Snapshot whose stored value is the empty string. -/
def emptyValSnapshot : Snapshot := [("svc", [("token", "")])]

/-- A requirement whose static value is the empty string and which also
has copy rules. -/
def emptyStaticCfg : Secret := ⟨"E", "k", some "", some ⟨"B", "y"⟩, none⟩

/-- A resolved set in which `A.seed` resolved to the empty string. -/
def emptySeedResolved : ResolvedSet := [("A", [("seed", ⟨"A", "seed", some ""⟩)])]

/-! Helper lemmas shared by the claim theorems. -/

theorem isEmpty_false_of_ne {v : String} (h : v ≠ "") : v.isEmpty = false := by
  cases hv : v.isEmpty
  · rfl
  · exact absurd ((String.isEmpty_iff v).mp hv) h

theorem truthy_some_of_ne {v : String} (h : v ≠ "") : truthy (some v) = true := by
  simp [truthy, isEmpty_false_of_ne h]

theorem truthy_some_empty : truthy (some "") = false := rfl

theorem truthy_none : truthy none = false := rfl

/-! Association-list lemmas for the dict model. -/

theorem dlookup_isSome_iff {α : Type} (k : String) (l : List (String × α)) :
    (dlookup k l).isSome = true ↔ k ∈ l.map Prod.fst := by
  induction l with
  | nil => simp [dlookup]
  | cons e rest ih =>
    obtain ⟨k', v⟩ := e
    by_cases h : k' = k
    · subst h
      simp [dlookup]
    · simp [dlookup, h, Ne.symm h, ih]

theorem dlookup_eq_none_iff {α : Type} (k : String) (l : List (String × α)) :
    dlookup k l = none ↔ k ∉ l.map Prod.fst := by
  rw [← dlookup_isSome_iff]
  cases dlookup k l <;> simp

theorem dlookup_mem {α : Type} {k : String} {l : List (String × α)} {v : α}
    (h : dlookup k l = some v) : (k, v) ∈ l := by
  induction l with
  | nil => simp [dlookup] at h
  | cons e rest ih =>
    obtain ⟨k', v'⟩ := e
    by_cases hk : k' = k
    · subst hk
      simp [dlookup] at h
      simp [h]
    · simp [dlookup, hk] at h
      simp [ih h]

theorem mem_dlookup {α : Type} {l : List (String × α)}
    (hnd : (l.map Prod.fst).Nodup) {k : String} {v : α}
    (h : (k, v) ∈ l) : dlookup k l = some v := by
  induction l with
  | nil => simp at h
  | cons e rest ih =>
    obtain ⟨k', v'⟩ := e
    simp only [List.map_cons, List.nodup_cons] at hnd
    rcases List.mem_cons.mp h with he | hm
    · obtain ⟨rfl, rfl⟩ := Prod.mk.injEq .. ▸ he
      simp [dlookup]
    · have hk : k' ≠ k := by
        rintro rfl
        exact hnd.1 (List.mem_map.mpr ⟨_, hm, rfl⟩)
      simp [dlookup, hk, ih hnd.2 hm]

theorem dlookup_dremove {α : Type} (k k' : String) (l : List (String × α)) :
    dlookup k' (dremove k l) = if k' = k then none else dlookup k' l := by
  induction l with
  | nil => simp [dremove, dlookup]
  | cons e rest ih =>
    obtain ⟨k₀, v⟩ := e
    by_cases h0 : k₀ = k
    · subst h0
      have hd : dremove k₀ ((k₀, v) :: rest) = dremove k₀ rest := by
        simp [dremove, List.filter_cons]
      rw [hd, ih]
      by_cases h1 : k' = k₀
      · simp [h1]
      · simp [h1, dlookup, Ne.symm h1]
    · have hd : dremove k ((k₀, v) :: rest) = (k₀, v) :: dremove k rest := by
        simp [dremove, List.filter_cons, h0]
      rw [hd]
      by_cases h1 : k₀ = k'
      · subst h1
        simp [dlookup, h0]
      · simp [dlookup, h1, ih]

theorem consume_cons (a k k₀ : String) (v : List (String × String))
    (rest : Snapshot) :
    consume a k ((k₀, v) :: rest)
      = (if k₀ = a then (k₀, dremove k v) else (k₀, v)) :: consume a k rest := rfl

theorem dlookup_consume (a k a' : String) (w : Snapshot) :
    dlookup a' (consume a k w)
      = (dlookup a' w).map (fun inner => if a' = a then dremove k inner else inner) := by
  induction w with
  | nil => simp [consume, dlookup]
  | cons e rest ih =>
    obtain ⟨k₀, v⟩ := e
    by_cases h0 : k₀ = a
    · rw [consume_cons, if_pos h0]
      by_cases h1 : k₀ = a'
      · subst h1
        subst h0
        simp [dlookup]
      · subst h0
        simp [dlookup, h1, ih]
    · rw [consume_cons, if_neg h0]
      by_cases h1 : k₀ = a'
      · subst h1
        simp [dlookup, h0]
      · simp [dlookup, h1, ih]

theorem vaultLookup2_consume (a k a' k' : String) (w : Snapshot) :
    vaultLookup2 (consume a k w) a' k'
      = if a' = a ∧ k' = k then none else vaultLookup2 w a' k' := by
  unfold vaultLookup2
  rw [dlookup_consume]
  cases h : dlookup a' w with
  | none => simp
  | some inner =>
    by_cases ha : a' = a
    · subst ha
      simp [dlookup_dremove]
    · simp [ha]

theorem consume_keys (a k : String) (w : Snapshot) :
    (consume a k w).map Prod.fst = w.map Prod.fst := by
  induction w with
  | nil => rfl
  | cons e rest ih =>
    obtain ⟨k₀, v⟩ := e
    by_cases h : k₀ = a
    · rw [consume_cons, if_pos h]
      simp [ih]
    · rw [consume_cons, if_neg h]
      simp [ih]

theorem mapFilter_consume (a k : String) (ps : List (String × String)) (w : Snapshot) :
    (consume a k w).map
      (fun e => (e.1, e.2.filter (fun kv => decide ((e.1, kv.1) ∉ ps))))
      = w.map
        (fun e => (e.1, e.2.filter (fun kv => decide ((e.1, kv.1) ∉ (a, k) :: ps)))) := by
  induction w with
  | nil => rfl
  | cons e rest ih =>
    obtain ⟨k₀, v⟩ := e
    by_cases h0 : k₀ = a
    · rw [consume_cons, if_pos h0]
      subst h0
      simp only [List.map_cons, ih]
      congr 1
      rw [Prod.mk.injEq]
      refine ⟨rfl, ?_⟩
      rw [dremove, List.filter_filter]
      apply List.filter_congr
      intro kv _
      by_cases hk : kv.1 = k <;> by_cases hm : (k₀, kv.1) ∈ ps <;>
        simp [hk, hm]
    · rw [consume_cons, if_neg h0]
      simp only [List.map_cons, ih]
      congr 1
      rw [Prod.mk.injEq]
      refine ⟨rfl, ?_⟩
      apply List.filter_congr
      intro kv _
      by_cases hm : (k₀, kv.1) ∈ ps <;> simp [hm, h0]

theorem mapFilter_absent (a k : String) (ps : List (String × String)) (w : Snapshot)
    (hnd : (w.map Prod.fst).Nodup)
    (habs : ∀ inner, dlookup a w = some inner → dlookup k inner = none) :
    w.map
      (fun e => (e.1, e.2.filter (fun kv => decide ((e.1, kv.1) ∉ (a, k) :: ps))))
      = w.map (fun e => (e.1, e.2.filter (fun kv => decide ((e.1, kv.1) ∉ ps)))) := by
  apply List.map_congr_left
  intro e he
  obtain ⟨k₀, v⟩ := e
  rw [Prod.mk.injEq]
  refine ⟨rfl, ?_⟩
  apply List.filter_congr
  intro kv hkv
  by_cases h0 : k₀ = a
  · subst h0
    have hv : dlookup k₀ w = some v := mem_dlookup hnd he
    have hknone : dlookup k v = none := habs v hv
    have hne : kv.1 ≠ k := by
      intro hkk
      exact (dlookup_eq_none_iff k v).mp hknone
        (hkk ▸ List.mem_map.mpr ⟨kv, hkv, rfl⟩)
    by_cases hm : (k₀, kv.1) ∈ ps <;> simp [hm, hne]
  · by_cases hm : (k₀, kv.1) ∈ ps <;> simp [hm, h0]

theorem flattenSnap_mapFilter (ps : List (String × String)) (w : Snapshot) :
    flattenSnap
      (w.map (fun e => (e.1, e.2.filter (fun kv => decide ((e.1, kv.1) ∉ ps)))))
      = (flattenSnap w).filter (fun p => decide (p ∉ ps)) := by
  induction w with
  | nil => rfl
  | cons e rest ih =>
    obtain ⟨k₀, v⟩ := e
    simp only [flattenSnap, List.map_cons, List.flatMap_cons] at *
    rw [List.filter_append, ih, List.filter_map]
    rfl

/-- Unfold `vaultLookup2` through `Option.bind`. -/
theorem vaultLookup2_eq (w : Snapshot) (a k : String) :
    vaultLookup2 w a k = (dlookup a w).bind (dlookup k) := by
  unfold vaultLookup2
  cases dlookup a w <;> rfl

/-- Unfolding of `auditGo` on a cons cell. -/
theorem auditGo_cons (acc : AuditAcc) (t : String × String × Option String)
    (ts : List (String × String × Option String)) :
    auditGo acc (t :: ts) = match auditStep acc t with
      | .error e => .error e
      | .ok acc' => auditGo acc' ts := rfl

/-- What the audit comparison loop computes, relative to the snapshot `V`
it started from: missing/mismatch/log entries are appended according to
each triple's classification against `V`, and the working snapshot ends up
filtered of every processed pair. -/
theorem auditGo_char (V : Snapshot) (ts : List (String × String × Option String)) :
    ∀ acc : AuditAcc,
      (∀ t ∈ ts, vaultLookup2 acc.w t.1 t.2.1 = vaultLookup2 V t.1 t.2.1) →
      (∀ t ∈ ts, (dlookup t.1 acc.w).isSome = true) →
      (ts.map (fun t => (t.1, t.2.1))).Nodup →
      (acc.w.map Prod.fst).Nodup →
      auditGo acc ts = .ok
        { missing := acc.missing ++
            (ts.filter (fun t => (vaultLookup2 V t.1 t.2.1).isNone)).map
              (fun t => renderPair t.1 t.2.1),
          mismatch := acc.mismatch ++
            (ts.filter (mismatchCond V)).map (fun t => renderPair t.1 t.2.1),
          log := acc.log ++
            (ts.filter (mismatchCond V)).map
              (fun t => (expectedOf t.2.2, (vaultLookup2 V t.1 t.2.1).getD "")),
          w := acc.w.map (fun e => (e.1, e.2.filter
            (fun kv => decide ((e.1, kv.1) ∉ ts.map (fun t => (t.1, t.2.1)))))) } := by
  induction ts with
  | nil =>
    intro acc _ _ _ _
    simp [auditGo]
  | cons t ts ih =>
    intro acc h1 h2 h3 h4
    obtain ⟨a, k, v⟩ := t
    have happ : (dlookup a acc.w).isSome = true := h2 (a, k, v) (List.mem_cons_self _ _)
    obtain ⟨inner, hinner⟩ := Option.isSome_iff_exists.mp happ
    have hagree : dlookup k inner = vaultLookup2 V a k := by
      have h := h1 (a, k, v) (List.mem_cons_self _ _)
      rw [vaultLookup2_eq, hinner] at h
      exact h
    have hnd' := (List.nodup_cons.mp h3).2
    have hhead : (a, k) ∉ ts.map (fun t => (t.1, t.2.1)) := (List.nodup_cons.mp h3).1
    have h1tail : ∀ t' ∈ ts, vaultLookup2 acc.w t'.1 t'.2.1 = vaultLookup2 V t'.1 t'.2.1 :=
      fun t' ht' => h1 t' (List.mem_cons_of_mem _ ht')
    have h2tail : ∀ t' ∈ ts, (dlookup t'.1 acc.w).isSome = true :=
      fun t' ht' => h2 t' (List.mem_cons_of_mem _ ht')
    have h1c : ∀ t' ∈ ts,
        vaultLookup2 (consume a k acc.w) t'.1 t'.2.1 = vaultLookup2 V t'.1 t'.2.1 := by
      intro t' ht'
      rw [vaultLookup2_consume, if_neg, h1tail t' ht']
      rintro ⟨hta, htk⟩
      exact hhead (List.mem_map.mpr ⟨t', ht', by rw [hta, htk]⟩)
    have h2c : ∀ t' ∈ ts, (dlookup t'.1 (consume a k acc.w)).isSome = true := by
      intro t' ht'
      rw [dlookup_consume]
      simp only [Option.isSome_map']
      exact h2tail t' ht'
    have h4c : ((consume a k acc.w).map Prod.fst).Nodup := by
      rw [consume_keys]
      exact h4
    have habsArg : ∀ inner', dlookup a acc.w = some inner' → dlookup k inner' = none → True := fun _ _ _ => trivial
    cases hV : vaultLookup2 V a k with
    | none =>
      have hkey : dlookup k inner = none := by rw [hagree, hV]
      have hstep : auditStep acc (a, k, v)
          = .ok { acc with missing := acc.missing ++ [a ++ " " ++ k] } := by
        unfold auditStep
        rw [hinner]
        simp [hkey]
      have hgo : auditGo acc ((a, k, v) :: ts)
          = auditGo { acc with missing := acc.missing ++ [a ++ " " ++ k] } ts := by
        rw [auditGo_cons, hstep]
      refine hgo.trans ((ih { acc with missing := acc.missing ++ [a ++ " " ++ k] }
        h1tail h2tail hnd' h4).trans ?_)
      simp only [Except.ok.injEq, AuditAcc.mk.injEq]
      refine ⟨?_, ?_, ?_, ?_⟩
      · rw [List.filter_cons_of_pos (by simp [hV])]
        simp [renderPair]
      · rw [List.filter_cons_of_neg (by simp [mismatchCond, hV])]
      · rw [List.filter_cons_of_neg (by simp [mismatchCond, hV])]
      · rw [List.map_cons]
        refine (mapFilter_absent a k _ acc.w h4 ?_).symm
        intro inner' hinner'
        rw [hinner] at hinner'
        cases hinner'
        exact hkey
    | some stored =>
      have hkey : dlookup k inner = some stored := by rw [hagree, hV]
      by_cases hm : expectedOf v = some stored
      · have hstep : auditStep acc (a, k, v)
            = .ok { acc with w := consume a k acc.w } := by
          unfold auditStep
          rw [hinner]
          simp [hkey, hm]
        have hgo : auditGo acc ((a, k, v) :: ts)
            = auditGo { acc with w := consume a k acc.w } ts := by
          rw [auditGo_cons, hstep]
        refine hgo.trans ((ih { acc with w := consume a k acc.w }
          h1c h2c hnd' h4c).trans ?_)
        simp only [Except.ok.injEq, AuditAcc.mk.injEq]
        refine ⟨?_, ?_, ?_, ?_⟩
        · rw [List.filter_cons_of_neg (by simp [hV])]
        · rw [List.filter_cons_of_neg (by simp [mismatchCond, hV, hm])]
        · rw [List.filter_cons_of_neg (by simp [mismatchCond, hV, hm])]
        · rw [List.map_cons]
          exact mapFilter_consume a k _ acc.w
      · have hstep : auditStep acc (a, k, v)
            = .ok { acc with
                      mismatch := acc.mismatch ++ [a ++ " " ++ k]
                      log := acc.log ++ [(expectedOf v, stored)]
                      w := consume a k acc.w } := by
          unfold auditStep
          rw [hinner]
          simp [hkey, hm]
        have hgo : auditGo acc ((a, k, v) :: ts)
            = auditGo { acc with
                          mismatch := acc.mismatch ++ [a ++ " " ++ k]
                          log := acc.log ++ [(expectedOf v, stored)]
                          w := consume a k acc.w } ts := by
          rw [auditGo_cons, hstep]
        refine hgo.trans ((ih { acc with
          mismatch := acc.mismatch ++ [a ++ " " ++ k]
          log := acc.log ++ [(expectedOf v, stored)]
          w := consume a k acc.w } h1c h2c hnd' h4c).trans ?_)
        simp only [Except.ok.injEq, AuditAcc.mk.injEq]
        refine ⟨?_, ?_, ?_, ?_⟩
        · rw [List.filter_cons_of_neg (by simp [hV])]
        · rw [List.filter_cons_of_pos (by simp [mismatchCond, hV, hm])]
          simp [renderPair]
        · rw [List.filter_cons_of_pos (by simp [mismatchCond, hV, hm])]
          simp [hV]
        · rw [List.map_cons]
          exact mapFilter_consume a k _ acc.w

/-- The audit comparison as one classification: each resolved triple is
missing or mismatched according to the original snapshot, the log gets one
entry per mismatch, and the snapshot mapping ends up stripped of every
consumed key. -/
theorem auditCore_char (R : ResolvedSet) (V : Snapshot)
    (hnd : (resolvedPairs R).Nodup)
    (happ : ∀ t ∈ flattenRS R, (dlookup t.1 V).isSome = true)
    (houter : (V.map Prod.fst).Nodup) :
    auditCore R V = .ok
      { missing := missingOf R V
        mismatch := mismatchedOf R V
        unknown := unknownOf R V
        log := logOf R V
        vaultAfter := consumedAll R V } := by
  unfold auditCore
  rw [auditGo_char V (flattenRS R) ⟨[], [], [], V⟩ (fun t _ => rfl) happ hnd houter]
  simp only [List.nil_append]
  rw [flattenSnap_mapFilter]
  rfl

/-! Lemmas about `dinsert` and `rsInsert`. -/

theorem dinsert_cons_self {α : Type} (k : String) (v v₀ : α)
    (rest : List (String × α)) :
    dinsert k v ((k, v₀) :: rest) = (k, v) :: rest := by
  simp [dinsert]

theorem dinsert_cons_ne {α : Type} {k₀ k : String} (h : k₀ ≠ k) (v v₀ : α)
    (rest : List (String × α)) :
    dinsert k v ((k₀, v₀) :: rest) = (k₀, v₀) :: dinsert k v rest := by
  simp [dinsert, h]

theorem dlookup_dinsert_self {α : Type} (k : String) (v : α) (l : List (String × α)) :
    dlookup k (dinsert k v l) = some v := by
  induction l with
  | nil => simp [dinsert, dlookup]
  | cons e rest ih =>
    obtain ⟨k₀, v₀⟩ := e
    by_cases h : k₀ = k
    · subst h
      rw [dinsert_cons_self]
      simp [dlookup]
    · rw [dinsert_cons_ne h]
      simp [dlookup, h, ih]

theorem dlookup_dinsert_ne {α : Type} {k k' : String} (hne : k' ≠ k) (v : α)
    (l : List (String × α)) :
    dlookup k' (dinsert k v l) = dlookup k' l := by
  induction l with
  | nil => simp [dinsert, dlookup, Ne.symm hne]
  | cons e rest ih =>
    obtain ⟨k₀, v₀⟩ := e
    by_cases h : k₀ = k
    · subst h
      rw [dinsert_cons_self]
      have hk : k₀ ≠ k' := fun hh => hne hh.symm
      simp [dlookup, hk]
    · rw [dinsert_cons_ne h]
      simp [dlookup, ih]

theorem mem_keys_dinsert {α : Type} (k k' : String) (v : α) (l : List (String × α)) :
    k' ∈ (dinsert k v l).map Prod.fst ↔ k' = k ∨ k' ∈ l.map Prod.fst := by
  induction l with
  | nil => simp [dinsert]
  | cons e rest ih =>
    obtain ⟨k₀, v₀⟩ := e
    by_cases h : k₀ = k
    · subst h
      rw [dinsert_cons_self]
      simp only [List.map_cons, List.mem_cons]
      tauto
    · rw [dinsert_cons_ne h]
      simp only [List.map_cons, List.mem_cons, ih]
      tauto

theorem nodup_keys_dinsert {α : Type} (k : String) (v : α) (l : List (String × α))
    (h : (l.map Prod.fst).Nodup) : ((dinsert k v l).map Prod.fst).Nodup := by
  induction l with
  | nil => simp [dinsert]
  | cons e rest ih =>
    obtain ⟨k₀, v₀⟩ := e
    simp only [List.map_cons, List.nodup_cons] at h
    by_cases hk : k₀ = k
    · subst hk
      rw [dinsert_cons_self]
      simp only [List.map_cons, List.nodup_cons]
      exact h
    · rw [dinsert_cons_ne hk]
      simp only [List.map_cons, List.nodup_cons]
      refine ⟨?_, ih h.2⟩
      rw [mem_keys_dinsert]
      rintro (rfl | hmem)
      · exact hk rfl
      · exact h.1 hmem

theorem mem_dinsert {α : Type} {e : String × α} {k : String} {v : α}
    {l : List (String × α)} (h : e ∈ dinsert k v l) : e = (k, v) ∨ e ∈ l := by
  induction l with
  | nil =>
    simp [dinsert] at h
    exact Or.inl h
  | cons e₀ rest ih =>
    obtain ⟨k₀, v₀⟩ := e₀
    by_cases hk : k₀ = k
    · subst hk
      rw [dinsert_cons_self] at h
      rcases List.mem_cons.mp h with rfl | h
      · exact Or.inl rfl
      · exact Or.inr (List.mem_cons_of_mem _ h)
    · rw [dinsert_cons_ne hk] at h
      rcases List.mem_cons.mp h with rfl | h
      · exact Or.inr (List.mem_cons_self _ _)
      · rcases ih h with h' | h'
        · exact Or.inl h'
        · exact Or.inr (List.mem_cons_of_mem _ h')

/-- Unfold `lookupRS` through `Option.bind`. -/
theorem lookupRS_eq (R : ResolvedSet) (a k : String) :
    lookupRS R a k = (dlookup a R).bind (dlookup k) := by
  unfold lookupRS
  cases dlookup a R <;> rfl

theorem lookupRS_rsInsert (R : ResolvedSet) (s : ResolvedSecret) (a k : String) :
    lookupRS (rsInsert R s) a k
      = if a = s.application ∧ k = s.key then some s else lookupRS R a k := by
  rw [lookupRS_eq, lookupRS_eq]
  unfold rsInsert
  by_cases ha : a = s.application
  · subst ha
    rw [dlookup_dinsert_self]
    by_cases hk : k = s.key
    · subst hk
      rw [if_pos ⟨rfl, rfl⟩]
      simp [dlookup_dinsert_self]
    · rw [if_neg (fun hh => hk hh.2)]
      simp only [Option.some_bind]
      rw [dlookup_dinsert_ne hk]
      cases hR : dlookup s.application R <;> simp [hR, dlookup]
  · rw [dlookup_dinsert_ne ha, if_neg (fun hh => ha hh.1)]

theorem rsWF_insert {R : ResolvedSet} (h : rsWF R) (s : ResolvedSecret) :
    rsWF (rsInsert R s) := by
  obtain ⟨houter, hinner, hpos⟩ := h
  refine ⟨nodup_keys_dinsert _ _ _ houter, ?_, ?_⟩
  · intro e he
    rcases mem_dinsert he with rfl | he'
    · apply nodup_keys_dinsert
      cases hR : dlookup s.application R with
      | none => simp
      | some inner => exact hinner _ (dlookup_mem hR)
    · exact hinner _ he'
  · intro e he kv hkv
    rcases mem_dinsert he with rfl | he'
    · rcases mem_dinsert hkv with rfl | hkv'
      · exact ⟨rfl, rfl⟩
      · cases hR : dlookup s.application R with
        | none =>
          rw [hR] at hkv'
          simp at hkv'
        | some inner =>
          rw [hR] at hkv'
          exact hpos _ (dlookup_mem hR) _ hkv'
    · exact hpos _ he' _ hkv

/-! Flattened views of a well-formed resolved set. -/

theorem pairs_flat_nodup {α : Type} (L : List (String × List (String × α)))
    (houter : (L.map Prod.fst).Nodup)
    (hinner : ∀ e ∈ L, (e.2.map Prod.fst).Nodup) :
    (L.flatMap (fun e => e.2.map (fun kv => (e.1, kv.1)))).Nodup := by
  induction L with
  | nil => simp
  | cons e rest ih =>
    obtain ⟨a, inner⟩ := e
    simp only [List.map_cons, List.nodup_cons] at houter
    rw [List.flatMap_cons, List.nodup_append]
    refine ⟨?_, ?_, ?_⟩
    · have h1 : (inner.map Prod.fst).Nodup := hinner _ (List.mem_cons_self _ _)
      have : inner.map (fun kv => ((a, kv.1) : String × String))
          = (inner.map Prod.fst).map (fun k => (a, k)) := by
        rw [List.map_map]
        rfl
      rw [this]
      exact h1.map (fun x y hxy => by simpa using hxy)
    · exact ih houter.2 (fun e' he' => hinner _ (List.mem_cons_of_mem _ he'))
    · intro p hp hp'
      obtain ⟨kv, _, rfl⟩ := List.mem_map.mp hp
      obtain ⟨e', he', hkv'⟩ := List.mem_flatMap.mp hp'
      obtain ⟨kv', _, hkv''⟩ := List.mem_map.mp hkv'
      apply houter.1
      have : e'.1 = a := by
        have := congrArg Prod.fst hkv''
        simpa using this
      rw [← this]
      exact List.mem_map.mpr ⟨e', he', rfl⟩

theorem resolvedPairs_eq (R : ResolvedSet) :
    resolvedPairs R = R.flatMap (fun e => e.2.map (fun kv => (e.1, kv.1))) := by
  unfold resolvedPairs flattenRS
  induction R with
  | nil => rfl
  | cons e rest ih =>
    simp only [List.flatMap_cons, List.map_append, List.map_map, ih]
    rfl

theorem resolvedPairs_nodup {R : ResolvedSet} (h : rsWF R) :
    (resolvedPairs R).Nodup := by
  rw [resolvedPairs_eq]
  exact pairs_flat_nodup R h.1 h.2.1

theorem flattenRS_nodup {R : ResolvedSet} (h : rsWF R) :
    (flattenRS R).Nodup :=
  (resolvedPairs_nodup h).of_map _

theorem mem_flattenRS_iff {R : ResolvedSet} (h : rsWF R)
    (t : String × String × Option String) :
    t ∈ flattenRS R ↔ ∃ s, lookupRS R t.1 t.2.1 = some s ∧ s.value = t.2.2 := by
  obtain ⟨houter, hinner, _⟩ := h
  constructor
  · intro ht
    obtain ⟨e, he, ht'⟩ := List.mem_flatMap.mp ht
    obtain ⟨kv, hkv, rfl⟩ := List.mem_map.mp ht'
    refine ⟨kv.2, ?_, rfl⟩
    rw [lookupRS_eq]
    rw [mem_dlookup houter (show ((e.1, e.2) : String × List (String × ResolvedSecret)) ∈ R by simpa using he)]
    simpa using mem_dlookup (hinner e he) (show ((kv.1, kv.2) : String × ResolvedSecret) ∈ e.2 by simpa using hkv)
  · rintro ⟨s, hs, hv⟩
    rw [lookupRS_eq] at hs
    cases hA : dlookup t.1 R with
    | none => rw [hA] at hs; simp at hs
    | some inner =>
      rw [hA] at hs
      simp only [Option.some_bind] at hs
      refine List.mem_flatMap.mpr ⟨(t.1, inner), dlookup_mem hA, ?_⟩
      refine List.mem_map.mpr ⟨(t.2.1, s), dlookup_mem hs, ?_⟩
      simp [hv]

theorem mem_resolvedPairs_iff {R : ResolvedSet} (h : rsWF R) (a k : String) :
    (a, k) ∈ resolvedPairs R ↔ lookupRS R a k ≠ none := by
  unfold resolvedPairs
  constructor
  · intro hp
    obtain ⟨t, ht, hteq⟩ := List.mem_map.mp hp
    obtain ⟨s, hs, _⟩ := (mem_flattenRS_iff h t).mp ht
    obtain ⟨h1, h2⟩ := Prod.mk.injEq .. ▸ hteq
    rw [← h1, ← h2, hs]
    simp
  · intro hne
    cases hs : lookupRS R a k with
    | none => exact absurd hs hne
    | some s =>
      have : ((a, k, s.value) : String × String × Option String) ∈ flattenRS R :=
        (mem_flattenRS_iff h _).mpr ⟨s, hs, rfl⟩
      exact List.mem_map.mpr ⟨(a, k, s.value), this, rfl⟩

/-! Lemmas about `findReq`. -/

theorem findReq_some {reqs : List Secret} {a k : String} {s : Secret}
    (h : findReq reqs a k = some s) :
    s ∈ reqs ∧ s.application = a ∧ s.key = k := by
  have hmem := List.mem_of_find?_eq_some h
  have hp := List.find?_some h
  simp only [decide_eq_true_eq] at hp
  exact ⟨hmem, hp.1, hp.2⟩

theorem findReq_of_mem {reqs : List Secret} (hnd : pairsNodup reqs)
    {req : Secret} (hmem : req ∈ reqs) :
    findReq reqs req.application req.key = some req := by
  cases hf : findReq reqs req.application req.key with
  | none =>
    rw [findReq, List.find?_eq_none] at hf
    exact absurd (by simp) (hf req hmem)
  | some s =>
    obtain ⟨hsmem, hsa, hsk⟩ := findReq_some hf
    have : s = req := by
      refine List.inj_on_of_nodup_map hnd hsmem hmem ?_
      simp [hsa, hsk]
    rw [this]

theorem findReq_perm {reqs reqs' : List Secret} (hperm : reqs.Perm reqs')
    (hnd : pairsNodup reqs) (a k : String) :
    findReq reqs a k = findReq reqs' a k := by
  have hnd' : pairsNodup reqs' := (hperm.map _).nodup hnd
  cases hf : findReq reqs a k with
  | none =>
    cases hf' : findReq reqs' a k with
    | none => rfl
    | some s =>
      obtain ⟨hsmem, hsa, hsk⟩ := findReq_some hf'
      rw [findReq, List.find?_eq_none] at hf
      exact absurd (by simp [hsa, hsk]) (hf s (hperm.mem_iff.mpr hsmem))
  | some s =>
    obtain ⟨hsmem, hsa, hsk⟩ := findReq_some hf
    rw [← hsa, ← hsk]
    exact (findReq_of_mem hnd' (hperm.mem_iff.mp hsmem)).symm

/-! Lemmas about the canonical evaluation `evalReq`. -/

theorem evalReq_mono {vault : Snapshot} {reqs : List Secret} :
    ∀ {n : Nat} {c : Secret} {v : Option String},
      evalReq vault reqs n c = some v → evalReq vault reqs (n + 1) c = some v := by
  intro n
  induction n with
  | zero => intro c v h; simp [evalReq] at h
  | succ n ih =>
    intro c v h
    rw [evalReq] at h
    rw [evalReq]
    by_cases htv : truthy c.value
    · simp only [if_pos htv] at h ⊢
      exact h
    · simp only [if_neg htv] at h ⊢
      cases hcp : c.copy_rules with
      | some rules =>
        simp only [hcp] at h ⊢
        cases hf : findReq reqs rules.application rules.key with
        | none => simp [hf] at h
        | some src =>
          simp only [hf] at h ⊢
          exact ih h
      | none =>
        simp only [hcp] at h ⊢
        cases hg : c.generate with
        | none => simp only [hg] at h ⊢; exact h
        | some g =>
          simp only [hg] at h ⊢
          by_cases hcur : truthy (vaultLookup2 vault c.application c.key)
          · simp only [if_pos hcur] at h ⊢
            exact h
          · simp only [if_neg hcur] at h ⊢
            cases g with
            | independent gen => exact h
            | source srcKey gen =>
              cases hf : findReq reqs c.application srcKey with
              | none => simp [hf] at h
              | some src =>
                simp only [hf] at h ⊢
                cases he : evalReq vault reqs n src with
                | none => rw [he] at h; simp at h
                | some ov =>
                  rw [he] at h
                  rw [ih he]
                  exact h

theorem evalReq_mono_le {vault : Snapshot} {reqs : List Secret} {n m : Nat}
    (hnm : n ≤ m) {c : Secret} {v : Option String}
    (h : evalReq vault reqs n c = some v) : evalReq vault reqs m c = some v := by
  induction hnm with
  | refl => exact h
  | step _ ih => exact evalReq_mono ih

theorem evalReq_det {vault : Snapshot} {reqs : List Secret} {n m : Nat}
    {c : Secret} {v w : Option String}
    (h1 : evalReq vault reqs n c = some v)
    (h2 : evalReq vault reqs m c = some w) : v = w := by
  rcases Nat.le_total n m with h | h
  · have hm := evalReq_mono_le h h1
    rw [hm] at h2
    exact Option.some.inj h2
  · have hm := evalReq_mono_le h h2
    rw [hm] at h1
    exact (Option.some.inj h1).symm

theorem evalReq_congr {vault : Snapshot} {reqs reqs' : List Secret}
    (hfind : ∀ a k, findReq reqs a k = findReq reqs' a k) :
    ∀ (n : Nat) (c : Secret), evalReq vault reqs n c = evalReq vault reqs' n c := by
  intro n
  induction n with
  | zero => intro c; rfl
  | succ n ih =>
    intro c
    rw [evalReq, evalReq]
    by_cases htv : truthy c.value
    · simp only [if_pos htv]
    · simp only [if_neg htv]
      cases hcp : c.copy_rules with
      | some rules =>
        dsimp only
        rw [← hfind rules.application rules.key]
        cases findReq reqs rules.application rules.key with
        | none => rfl
        | some src =>
          dsimp only
          exact ih src
      | none =>
        dsimp only
        cases hg : c.generate with
        | none => rfl
        | some g =>
          dsimp only
          by_cases hcur : truthy (vaultLookup2 vault c.application c.key)
          · simp only [if_pos hcur]
          · simp only [if_neg hcur]
            cases g with
            | independent gen => rfl
            | source srcKey gen =>
              dsimp only
              rw [← hfind c.application srcKey]
              cases findReq reqs c.application srcKey with
              | none => rfl
              | some src =>
                dsimp only
                rw [ih src]

/-! The per-secret step realises the canonical evaluation. -/

theorem resolve_secret_eval {vault : Snapshot} {reqs : List Secret}
    (hnd : pairsNodup reqs) {R : ResolvedSet}
    (hres : ∀ a k s, lookupRS R a k = some s → s.application = a ∧ s.key = k ∧
      ∃ n req, req ∈ reqs ∧ req.application = a ∧ req.key = k ∧
        evalReq vault reqs n req = some s.value)
    {config : Secret} (hmem : config ∈ reqs) {s : ResolvedSecret}
    (hstep : resolve_secret config R
      (vaultLookup2 vault config.application config.key) = some s) :
    s.application = config.application ∧ s.key = config.key ∧
      ∃ n, evalReq vault reqs n config = some s.value := by
  unfold resolve_secret at hstep
  by_cases htv : truthy config.value
  · rw [if_pos htv] at hstep
    cases hstep
    refine ⟨rfl, rfl, 1, ?_⟩
    rw [evalReq, if_pos htv]
  · rw [if_neg htv] at hstep
    cases hcp : config.copy_rules with
    | some rules =>
      simp only [hcp] at hstep
      cases hlook : lookupRS R rules.application rules.key with
      | none => simp [hlook] at hstep
      | some other =>
        simp only [hlook] at hstep
        cases hstep
        obtain ⟨ha₂, hk₂, n₂, req₂, hmem₂, hreqa₂, hreqk₂, heval₂⟩ :=
          hres _ _ _ hlook
        have hfind : findReq reqs rules.application rules.key = some req₂ := by
          rw [← hreqa₂, ← hreqk₂]
          exact findReq_of_mem hnd hmem₂
        refine ⟨rfl, rfl, n₂ + 1, ?_⟩
        rw [evalReq, if_neg htv, hcp]
        dsimp only
        rw [hfind]
        dsimp only
        exact heval₂
    | none =>
      simp only [hcp] at hstep
      cases hg : config.generate with
      | some g =>
        simp only [hg] at hstep
        by_cases hcur : truthy (vaultLookup2 vault config.application config.key)
        · rw [if_pos hcur] at hstep
          cases hstep
          refine ⟨rfl, rfl, 1, ?_⟩
          rw [evalReq, if_neg htv, hcp]
          dsimp only
          rw [hg]
          dsimp only
          rw [if_pos hcur]
        · rw [if_neg hcur] at hstep
          cases g with
          | independent gen =>
            dsimp only at hstep
            cases hstep
            refine ⟨rfl, rfl, 1, ?_⟩
            rw [evalReq, if_neg htv, hcp]
            dsimp only
            rw [hg]
            dsimp only
            rw [if_neg hcur]
          | source srcKey gen =>
            dsimp only at hstep
            cases hlook : lookupRS R config.application srcKey with
            | none => simp [hlook] at hstep
            | some other =>
              simp only [hlook] at hstep
              cases hov : other.value with
              | none => simp [hov] at hstep
              | some str =>
                simp only [hov] at hstep
                by_cases hemp : str.isEmpty
                · simp [hemp] at hstep
                · rw [if_neg hemp] at hstep
                  cases hstep
                  obtain ⟨ha₂, hk₂, n₂, req₂, hmem₂, hreqa₂, hreqk₂, heval₂⟩ :=
                    hres _ _ _ hlook
                  have hfind : findReq reqs config.application srcKey = some req₂ := by
                    rw [← hreqa₂, ← hreqk₂]
                    exact findReq_of_mem hnd hmem₂
                  rw [hov] at heval₂
                  refine ⟨rfl, rfl, n₂ + 1, ?_⟩
                  rw [evalReq, if_neg htv, hcp]
                  dsimp only
                  rw [hg]
                  dsimp only
                  rw [if_neg hcur]
                  rw [hfind]
                  dsimp only
                  rw [heval₂]
                  dsimp only
                  rw [if_neg hemp]
      | none =>
        simp only [hg] at hstep
        cases hstep
        refine ⟨rfl, rfl, 1, ?_⟩
        rw [evalReq, if_neg htv, hcp]
        dsimp only
        rw [hg]

/-- Unfolding of `resolvePass` on a cons cell. -/
theorem resolvePass_cons (vault : Snapshot) (R : ResolvedSet) (config : Secret)
    (rest : List Secret) :
    resolvePass vault R (config :: rest)
      = match dlookup config.application vault with
        | none => .error (.keyError config.application)
        | some vault_values =>
          match resolve_secret config R (dlookup config.key vault_values) with
          | some s => resolvePass vault (rsInsert R s) rest
          | none =>
            match resolvePass vault R rest with
            | .ok (r, u) => .ok (r, config :: u)
            | .error e => .error e := rfl

/-- Unfolding of `resolveLoop` with fuel on a non-empty pending list. -/
theorem resolveLoop_succ_cons (vault : Snapshot) (fuel : Nat) (R : ResolvedSet)
    (c : Secret) (P : List Secret) :
    resolveLoop vault (fuel + 1) R (c :: P)
      = match resolvePass vault R (c :: P) with
        | .error e => .error e
        | .ok (r, u) =>
          if (c :: P).length ≤ u.length then .error (.unresolvedSecrets u)
          else resolveLoop vault fuel r u := rfl

/-- One pass of the loop preserves the invariant: it returns the failures
in order, covers every processed requirement (resolved now or still
pending), and never loses a resolved entry. -/
theorem resolvePass_inv {vault : Snapshot} {reqs : List Secret}
    (hnd : pairsNodup reqs) (hcov : appsCovered reqs vault) :
    ∀ (P : List Secret) (R : ResolvedSet),
      (∀ p ∈ P, p ∈ reqs) → rsInv vault reqs R →
      ∃ R' U, resolvePass vault R P = .ok (R', U)
        ∧ rsInv vault reqs R'
        ∧ (∀ p ∈ U, p ∈ P)
        ∧ (∀ p ∈ P, lookupRS R' p.application p.key ≠ none ∨ p ∈ U)
        ∧ (∀ a k, lookupRS R a k ≠ none → lookupRS R' a k ≠ none) := by
  intro P
  induction P with
  | nil =>
    intro R _ hinv
    exact ⟨R, [], rfl, hinv, by simp, by simp, fun a k h => h⟩
  | cons config P ih =>
    intro R hsub hinv
    have hmem : config ∈ reqs := hsub _ (List.mem_cons_self _ _)
    have happ : (dlookup config.application vault).isSome = true := hcov _ hmem
    obtain ⟨vault_values, hvv⟩ := Option.isSome_iff_exists.mp happ
    have hcur : dlookup config.key vault_values
        = vaultLookup2 vault config.application config.key := by
      rw [vaultLookup2_eq, hvv]
      rfl
    cases hrs : resolve_secret config R (dlookup config.key vault_values) with
    | some s =>
      have hrs' := hrs
      rw [hcur] at hrs'
      obtain ⟨hsa, hsk, n, heval⟩ := resolve_secret_eval hnd hinv.2 hmem hrs'
      have hinv' : rsInv vault reqs (rsInsert R s) := by
        refine ⟨rsWF_insert hinv.1 s, ?_⟩
        intro a k s' hl
        rw [lookupRS_rsInsert] at hl
        by_cases hpair : a = s.application ∧ k = s.key
        · rw [if_pos hpair] at hl
          cases hl
          refine ⟨hpair.1.symm, hpair.2.symm, n, config, hmem, ?_, ?_, heval⟩
          · rw [hpair.1, hsa]
          · rw [hpair.2, hsk]
        · rw [if_neg hpair] at hl
          exact hinv.2 _ _ _ hl
      obtain ⟨R', U, hpass, hinv'', hUsub, hcovP, hmono⟩ :=
        ih (rsInsert R s) (fun p hp => hsub _ (List.mem_cons_of_mem _ hp)) hinv'
      refine ⟨R', U, ?_, hinv'', fun p hp => List.mem_cons_of_mem _ (hUsub _ hp), ?_, ?_⟩
      · rw [resolvePass_cons, hvv]
        dsimp only
        rw [hrs]
        exact hpass
      · intro p hp
        rcases List.mem_cons.mp hp with rfl | hp'
        · left
          apply hmono
          rw [lookupRS_rsInsert, if_pos ⟨hsa.symm, hsk.symm⟩]
          simp
        · exact hcovP p hp'
      · intro a k h
        apply hmono
        rw [lookupRS_rsInsert]
        by_cases hpair : a = s.application ∧ k = s.key
        · rw [if_pos hpair]
          simp
        · rw [if_neg hpair]
          exact h
    | none =>
      obtain ⟨R', U, hpass, hinv'', hUsub, hcovP, hmono⟩ :=
        ih R (fun p hp => hsub _ (List.mem_cons_of_mem _ hp)) hinv
      refine ⟨R', config :: U, ?_, hinv'', ?_, ?_, hmono⟩
      · rw [resolvePass_cons, hvv]
        dsimp only
        rw [hrs]
        dsimp only
        rw [hpass]
      · intro p hp
        rcases List.mem_cons.mp hp with rfl | hp'
        · exact List.mem_cons_self _ _
        · exact List.mem_cons_of_mem _ (hUsub _ hp')
      · intro p hp
        rcases List.mem_cons.mp hp with rfl | hp'
        · exact Or.inr (List.mem_cons_self _ _)
        · rcases hcovP p hp' with h | h
          · exact Or.inl h
          · exact Or.inr (List.mem_cons_of_mem _ h)

/-- The fixed-point loop, run to success, resolves every requirement with
its canonical value. -/
theorem resolveLoop_inv {vault : Snapshot} {reqs : List Secret}
    (hnd : pairsNodup reqs) (hcov : appsCovered reqs vault) :
    ∀ (fuel : Nat) (P : List Secret) (R : ResolvedSet),
      P.length < fuel →
      (∀ p ∈ P, p ∈ reqs) →
      rsInv vault reqs R →
      (∀ req ∈ reqs, lookupRS R req.application req.key ≠ none ∨ req ∈ P) →
      ∀ Rf, resolveLoop vault fuel R P = .ok Rf →
        rsInv vault reqs Rf
          ∧ ∀ req ∈ reqs, lookupRS Rf req.application req.key ≠ none := by
  intro fuel
  induction fuel with
  | zero =>
    intro P R hlt _ _ _ Rf _
    exact absurd hlt (Nat.not_lt_zero _)
  | succ fuel ih =>
    intro P R hlt hsub hinv hcovR Rf hloop
    cases P with
    | nil =>
      have hR : Rf = R := by
        have h0 : resolveLoop vault (fuel + 1) R [] = .ok R := rfl
        rw [h0] at hloop
        exact (Except.ok.inj hloop).symm
      subst hR
      refine ⟨hinv, fun req hreq => ?_⟩
      rcases hcovR req hreq with h | h
      · exact h
      · simp at h
    | cons c P' =>
      obtain ⟨R', U, hpass, hinv', hUsub, hcovP, hmono⟩ :=
        resolvePass_inv hnd hcov (c :: P') R hsub hinv
      rw [resolveLoop_succ_cons, hpass] at hloop
      dsimp only at hloop
      by_cases hle : (c :: P').length ≤ U.length
      · rw [if_pos hle] at hloop
        simp at hloop
      · rw [if_neg hle] at hloop
        have hlenU : U.length < fuel := by
          have h1 : (c :: P').length ≤ fuel := Nat.lt_succ_iff.mp hlt
          have h2 : U.length < (c :: P').length := Nat.lt_of_not_le hle
          omega
        refine ih U R' hlenU (fun p hp => hsub _ (hUsub _ hp)) hinv' ?_ Rf hloop
        intro req hreq
        rcases hcovR req hreq with h | h
        · exact Or.inl (hmono _ _ h)
        · exact hcovP req h

/-- `_resolve_secrets` run to success: the result is well-formed and
resolves exactly the declared requirements, each with its canonical
value. -/
theorem resolve_secrets_char {reqs : List Secret} {vault : Snapshot}
    (hnd : pairsNodup reqs) (hcov : appsCovered reqs vault) {R : ResolvedSet}
    (hok : resolve_secrets reqs vault = .ok R) :
    rsInv vault reqs R
      ∧ ∀ req ∈ reqs, lookupRS R req.application req.key ≠ none := by
  unfold resolve_secrets at hok
  refine resolveLoop_inv hnd hcov (reqs.length + 1) reqs [] (by omega)
    (fun p hp => hp) ⟨⟨by simp, by simp, by simp⟩, ?_⟩
    (fun req hreq => Or.inr hreq) R hok
  intro a k s hl
  rw [lookupRS_eq] at hl
  simp [dlookup] at hl

/-- Two successful resolutions of permuted requirement lists agree on
every lookup. -/
theorem resolved_lookup_perm_eq {reqs reqs' : List Secret} {vault : Snapshot}
    (hperm : reqs.Perm reqs') (hnd : pairsNodup reqs)
    (hcov : appsCovered reqs vault) {R R' : ResolvedSet}
    (hok : resolve_secrets reqs vault = .ok R)
    (hok' : resolve_secrets reqs' vault = .ok R') :
    ∀ a k, lookupRS R a k = lookupRS R' a k := by
  have hnd' : pairsNodup reqs' := (hperm.map _).nodup hnd
  have hcov' : appsCovered reqs' vault :=
    fun req hreq => hcov req (hperm.mem_iff.mpr hreq)
  obtain ⟨⟨hwf, hchar⟩, hdom⟩ := resolve_secrets_char hnd hcov hok
  obtain ⟨⟨hwf', hchar'⟩, hdom'⟩ := resolve_secrets_char hnd' hcov' hok'
  have hfind : ∀ a k, findReq reqs a k = findReq reqs' a k := findReq_perm hperm hnd
  intro a k
  cases hl : lookupRS R a k with
  | some s =>
    obtain ⟨hsa, hsk, n, req, hreqmem, hreqa, hreqk, heval⟩ := hchar _ _ _ hl
    have hreqmem' : req ∈ reqs' := hperm.mem_iff.mp hreqmem
    have h2 := hdom' req hreqmem'
    rw [hreqa, hreqk] at h2
    cases hl' : lookupRS R' a k with
    | none => exact absurd hl' h2
    | some s' =>
      obtain ⟨hsa', hsk', n', req', hreqmem'', hreqa', hreqk', heval'⟩ :=
        hchar' _ _ _ hl'
      have hrr : req' = req :=
        List.inj_on_of_nodup_map hnd' hreqmem'' hreqmem'
          (by simp [hreqa, hreqk, hreqa', hreqk'])
      subst hrr
      rw [← evalReq_congr hfind n' req'] at heval'
      have hveq : s.value = s'.value := evalReq_det heval heval'
      have hss : s = s' := by
        cases s
        cases s'
        simp only [ResolvedSecret.mk.injEq]
        simp only at hsa hsk hsa' hsk' hveq
        exact ⟨hsa.trans hsa'.symm, hsk.trans hsk'.symm, hveq⟩
      rw [hss]
  | none =>
    cases hl' : lookupRS R' a k with
    | none => rfl
    | some s' =>
      obtain ⟨hsa', hsk', n', req', hreqmem'', hreqa', hreqk', _⟩ :=
        hchar' _ _ _ hl'
      have hd := hdom req' (hperm.mem_iff.mpr hreqmem'')
      rw [hreqa', hreqk'] at hd
      exact absurd hl hd

/-- Equal lookups give permuted flattened views. -/
theorem flattenRS_perm_of_lookup_eq {R R' : ResolvedSet}
    (hwf : rsWF R) (hwf' : rsWF R')
    (hleq : ∀ a k, lookupRS R a k = lookupRS R' a k) :
    (flattenRS R).Perm (flattenRS R') := by
  rw [List.perm_ext_iff_of_nodup (flattenRS_nodup hwf) (flattenRS_nodup hwf')]
  intro t
  rw [mem_flattenRS_iff hwf, mem_flattenRS_iff hwf', hleq]

/-! Claim theorems. -/

/-- C1: whenever a full fixed-point pass leaves the pending set as large
as it was (it cannot grow), the loop fails with `UnresolvedSecretsError`
carrying exactly the remaining pending requirements; when pending is
empty the resolved set is returned; and the two mutually-copying
requirements `A.x copyFrom B.y`, `B.y copyFrom A.x` fail with both listed
as stuck. -/
theorem resolution_stuck_fails_with_pending :
    (∀ (vault : Snapshot) (resolved r : ResolvedSet) (pending u : List Secret)
      (fuel : Nat),
      pending ≠ [] →
      resolvePass vault resolved pending = .ok (r, u) →
      pending.length ≤ u.length →
      resolveLoop vault (fuel + 1) resolved pending = .error (.unresolvedSecrets u))
    ∧ (∀ (vault : Snapshot) (resolved : ResolvedSet) (fuel : Nat),
      resolveLoop vault fuel resolved [] = .ok resolved)
    ∧ resolve_secrets [cycleAx, cycleBy] twoAppVault
        = .error (.unresolvedSecrets [cycleAx, cycleBy]) := by
  refine ⟨?_, ?_, rfl⟩
  · intro vault resolved r pending u fuel hne hpass hlen
    cases pending with
    | nil => exact absurd rfl hne
    | cons p ps =>
      simp only [resolveLoop, hpass]
      rw [if_pos hlen]
  · intro vault resolved fuel
    cases fuel <;> rfl

/-- C1 witness: the stuck-pass part instantiated on the cycle example. -/
theorem resolution_stuck_fails_with_pending_witness :
    resolveLoop twoAppVault 1 [] [cycleAx, cycleBy]
      = .error (.unresolvedSecrets [cycleAx, cycleBy]) :=
  resolution_stuck_fails_with_pending.1 twoAppVault [] [] [cycleAx, cycleBy]
    [cycleAx, cycleBy] 0 (by simp) rfl (by simp)

/-- C2 (amended): the audit comparison classifies every resolved
`(application, key)` exactly as the claim says — missing when the key is
absent from the snapshot, mismatched when present with a differing value
(a value-less resolved secret against any stored value included), consumed
from the working snapshot either way, with the leftovers unknown — except
that a resolved value equal to the empty string is compared as absent
rather than by revealed-value equality; the claim's own example is
reproduced exactly. -/
theorem audit_classification (R : ResolvedSet) (V : Snapshot)
    (hnd : (resolvedPairs R).Nodup)
    (happ : ∀ t ∈ flattenRS R, (dlookup t.1 V).isSome = true)
    (houter : (V.map Prod.fst).Nodup) :
    (auditCore R V = .ok
      { missing := missingOf R V
        mismatch := mismatchedOf R V
        unknown := unknownOf R V
        log := logOf R V
        vaultAfter := consumedAll R V })
    ∧ auditCore svcResolved svcSnapshot = .ok svcOutcome :=
  ⟨auditCore_char R V hnd happ houter, rfl⟩

/-- C2 witness: the classification applied to the claim's concrete
example. -/
theorem audit_classification_witness :
    (auditCore svcResolved svcSnapshot = .ok
      { missing := missingOf svcResolved svcSnapshot
        mismatch := mismatchedOf svcResolved svcSnapshot
        unknown := unknownOf svcResolved svcSnapshot
        log := logOf svcResolved svcSnapshot
        vaultAfter := consumedAll svcResolved svcSnapshot })
    ∧ auditCore svcResolved svcSnapshot = .ok svcOutcome :=
  audit_classification svcResolved svcSnapshot (by decide) (by decide) (by decide)

/-- C2 counterexample: a resolved value that is the empty string against a
stored empty string is recorded as mismatched by the code, although exact
equality of the revealed values (the claim's comparison) holds, so the
claim's classification (which leaves `mismatched` empty here) differs from
the code. -/
theorem revealed_equality_counterexample :
    auditCore emptyValResolved emptyValSnapshot
      = .ok ⟨[], ["svc token"], [], [(none, "")], [("svc", [])]⟩
    ∧ mismatchedByRevealedEquality emptyValResolved emptyValSnapshot = [] :=
  ⟨rfl, rfl⟩

/-- C3: a requirement whose static value is set (a secret value is "set"
when non-empty, Python truthiness) resolves immediately to that value,
whatever its copy or generate configuration and whatever the store
currently holds. -/
theorem static_value_wins (config : Secret) (resolved : ResolvedSet)
    (current : Option String) (v : String)
    (hv : config.value = some v) (hne : v ≠ "") :
    resolve_secret config resolved current
      = some ⟨config.application, config.key, some v⟩ := by
  simp [resolve_secret, hv, truthy_some_of_ne hne]

/-- C3 witness: a requirement with both a static value and copy rules
resolves to the static value even though the store holds another one. -/
theorem static_value_wins_witness :
    resolve_secret staticCopyCfg [] (some "stored") = some ⟨"A", "x", some "v"⟩ :=
  static_value_wins staticCopyCfg [] (some "stored") "v" rfl (by decide)

/-- C4: a generate requirement with a non-empty stored value resolves to
that stored value; with no stored value an independent generator fires
immediately, while a derived generator waits until its same-application
source is resolved with a set value and then applies the function; and
the derived-generation example `A.seed = "s"`, `A.hash = "S"` resolves
end to end. -/
theorem generate_resolution :
    (∀ (config : Secret) (resolved : ResolvedSet) (g : GenerateRules) (c : String),
      truthy config.value = false → config.copy_rules = none →
      config.generate = some g → c ≠ "" →
      resolve_secret config resolved (some c)
        = some ⟨config.application, config.key, some c⟩)
    ∧ (∀ (config : Secret) (resolved : ResolvedSet) (gen : Unit → String)
        (current : Option String),
      truthy config.value = false → config.copy_rules = none →
      config.generate = some (.independent gen) → truthy current = false →
      resolve_secret config resolved current
        = some ⟨config.application, config.key, some (gen ())⟩)
    ∧ (∀ (config : Secret) (resolved : ResolvedSet) (src : String)
        (gen : String → String) (current : Option String),
      truthy config.value = false → config.copy_rules = none →
      config.generate = some (.source src gen) → truthy current = false →
      (lookupRS resolved config.application src = none →
        resolve_secret config resolved current = none)
      ∧ (∀ other, lookupRS resolved config.application src = some other →
          truthy other.value = false →
          resolve_secret config resolved current = none)
      ∧ (∀ other s, lookupRS resolved config.application src = some other →
          other.value = some s → s ≠ "" →
          resolve_secret config resolved current
            = some ⟨config.application, config.key, some (gen s)⟩))
    ∧ (∃ R, resolve_secrets [hashReq, seedReq] oneAppVault = .ok R
        ∧ lookupRS R "A" "seed" = some ⟨"A", "seed", some "s"⟩
        ∧ lookupRS R "A" "hash" = some ⟨"A", "hash", some "S"⟩) := by
  refine ⟨?_, ?_, ?_, ?_⟩
  · intro config resolved g c hv hcp hg hc
    simp [resolve_secret, hv, hcp, hg, truthy_some_of_ne hc]
  · intro config resolved gen current hv hcp hg hcur
    simp [resolve_secret, hv, hcp, hg, hcur]
  · intro config resolved src gen current hv hcp hg hcur
    refine ⟨?_, ?_, ?_⟩
    · intro hlook
      simp [resolve_secret, hv, hcp, hg, hcur, hlook]
    · intro other hlook hov
      cases hov' : other.value with
      | none => simp [resolve_secret, hv, hcp, hg, hcur, hlook, hov']
      | some s =>
        have : s.isEmpty = true := by
          rw [hov'] at hov
          simpa [truthy] using hov
        simp [resolve_secret, hv, hcp, hg, hcur, hlook, hov', this]
    · intro other s hlook hov hs
      simp [resolve_secret, hv, hcp, hg, hcur, hlook, hov, isEmpty_false_of_ne hs]
  · exact ⟨_, rfl, by decide, by decide⟩

/-- C4 witness: idempotent generation against a stored value, fresh
independent generation, and a derived generator waiting for its source. -/
theorem generate_resolution_witness :
    resolve_secret genTokCfg [] (some "old") = some ⟨"G", "tok", some "old"⟩
    ∧ resolve_secret genTokCfg [] none = some ⟨"G", "tok", some "fresh"⟩
    ∧ resolve_secret hashReq [] none = none :=
  ⟨generate_resolution.1 genTokCfg [] _ "old" rfl rfl rfl (by decide),
    generate_resolution.2.1 genTokCfg [] _ none rfl rfl rfl rfl,
    (generate_resolution.2.2.1 hashReq [] "seed" upperFn none
      rfl rfl rfl rfl).1 rfl⟩

/-- C5: the source crashes instead of treating an application absent from
the snapshot as having no stored secrets — both the audit comparison and
resolution raise `KeyError` on the plain `vault_secrets[...]` index
(evaluated at the claim's own input: resolved `{svc: {token: "abc"}}`
against the empty snapshot). -/
theorem missing_application_raises_keyerror :
    auditCore svcResolved [] = .error (.keyError "svc")
    ∧ resolve_secrets [svcStaticReq] [] = .error (.keyError "svc") :=
  ⟨rfl, rfl⟩

/-- C6: the audit mismatch branch calls
`logging.error("mismatch %s %s", expected, vault)` with both revealed
secret values, so secret values do appear in a log message (evaluated at
a concrete mismatching input). -/
theorem mismatch_branch_logs_secret_values :
    auditCore svcResolved svcSnapshot = .ok svcOutcome
    ∧ svcOutcome.log = [(some "abc", "xyz")] :=
  ⟨rfl, rfl⟩

/-- C7: the audit comparison takes no working copy — it deletes consumed
entries from the snapshot mapping it was given, and logging is a second
effect besides the report (evaluated at a concrete input: afterwards the
mapping has lost the consumed key and the log is non-empty). -/
theorem audit_consumes_snapshot_in_place :
    auditCore frameResolved frameSnapshot = .ok frameOutcome
    ∧ frameOutcome.vaultAfter ≠ frameSnapshot
    ∧ frameOutcome.log ≠ [] := by
  refine ⟨rfl, ?_, ?_⟩ <;> decide

/-- C8 (amended): for a fixed snapshot (a well-formed dict) and a
requirement list with unique `(application, key)` pairs whose applications
are present in the snapshot, any two successful resolutions of permuted
requirement lists agree on every resolved lookup, and their audits agree
up to the order in which report categories were populated: `missing` and
`mismatch` as permutations of each other, `unknown` exactly; the order of
entries inside `missing`/`mismatch` may follow the requirement order.  The
forward-reference example `[B.y copyFrom A.x, A.x staticValue "v"]`
resolves with `B.y = "v"`. -/
theorem resolution_audit_permutation :
    (∀ (reqs reqs' : List Secret) (vault : Snapshot) (R R' : ResolvedSet),
      reqs.Perm reqs' → pairsNodup reqs → appsCovered reqs vault →
      (vault.map Prod.fst).Nodup →
      resolve_secrets reqs vault = .ok R →
      resolve_secrets reqs' vault = .ok R' →
      (∀ a k, lookupRS R a k = lookupRS R' a k)
      ∧ ∃ o o', auditCore R vault = .ok o ∧ auditCore R' vault = .ok o'
          ∧ o.missing.Perm o'.missing
          ∧ o.mismatch.Perm o'.mismatch
          ∧ o.unknown = o'.unknown)
    ∧ (resolve_secrets [fwdCopy, fwdStatic] twoAppVault = .ok fwdResolved
        ∧ lookupRS fwdResolved "B" "y" = some ⟨"B", "y", some "v"⟩) := by
  refine ⟨?_, rfl, rfl⟩
  intro reqs reqs' vault R R' hperm hnd hcov hvn hok hok'
  obtain ⟨⟨hwf, hchar⟩, hdom⟩ := resolve_secrets_char hnd hcov hok
  have hnd' : pairsNodup reqs' := (hperm.map _).nodup hnd
  have hcov' : appsCovered reqs' vault :=
    fun req hreq => hcov req (hperm.mem_iff.mpr hreq)
  obtain ⟨⟨hwf', hchar'⟩, hdom'⟩ := resolve_secrets_char hnd' hcov' hok'
  have hleq := resolved_lookup_perm_eq hperm hnd hcov hok hok'
  have happR : ∀ t ∈ flattenRS R, (dlookup t.1 vault).isSome = true := by
    intro t ht
    obtain ⟨s, hs, _⟩ := (mem_flattenRS_iff hwf t).mp ht
    obtain ⟨_, _, _, req, hreqmem, hreqa, _, _⟩ := hchar _ _ _ hs
    rw [← hreqa]
    exact hcov _ hreqmem
  have happR' : ∀ t ∈ flattenRS R', (dlookup t.1 vault).isSome = true := by
    intro t ht
    obtain ⟨s, hs, _⟩ := (mem_flattenRS_iff hwf' t).mp ht
    obtain ⟨_, _, _, req, hreqmem, hreqa, _, _⟩ := hchar' _ _ _ hs
    rw [← hreqa]
    exact hcov' _ hreqmem
  have hA := auditCore_char R vault (resolvedPairs_nodup hwf) happR hvn
  have hA' := auditCore_char R' vault (resolvedPairs_nodup hwf') happR' hvn
  have hfl : (flattenRS R).Perm (flattenRS R') :=
    flattenRS_perm_of_lookup_eq hwf hwf' hleq
  refine ⟨hleq, _, _, hA, hA', ?_, ?_, ?_⟩
  · exact (hfl.filter _).map _
  · exact (hfl.filter _).map _
  · show unknownOf R vault = unknownOf R' vault
    unfold unknownOf
    have hfe : (flattenSnap vault).filter (fun p => decide (p ∉ resolvedPairs R))
        = (flattenSnap vault).filter (fun p => decide (p ∉ resolvedPairs R')) := by
      apply List.filter_congr
      intro p _
      rw [decide_eq_decide]
      rw [mem_resolvedPairs_iff hwf, mem_resolvedPairs_iff hwf', hleq]
    rw [hfe]

/-- C8 witness: the general part applied to the forward-reference example
and its swap. -/
theorem resolution_audit_permutation_witness :
    (∀ a k, lookupRS fwdResolved a k = lookupRS fwdResolved a k)
    ∧ ∃ o o', auditCore fwdResolved twoAppVault = .ok o
        ∧ auditCore fwdResolved twoAppVault = .ok o'
        ∧ o.missing.Perm o'.missing
        ∧ o.mismatch.Perm o'.mismatch
        ∧ o.unknown = o'.unknown :=
  resolution_audit_permutation.1 [fwdCopy, fwdStatic] [fwdStatic, fwdCopy]
    twoAppVault fwdResolved fwdResolved (List.Perm.swap _ _ _)
    (by unfold pairsNodup; decide) (by unfold appsCovered; decide) (by decide) rfl rfl

/-- C8 counterexample: the audit report itself is not invariant under
permutation of the requirement list — with two static secrets both
missing from the store, the two orders produce different report
strings (the missing entries are listed in resolution order). -/
theorem audit_report_order_counterexample :
    audit [permAx, permBy] twoAppVault = .ok "Missing secrets:\n• A x\n• B y\n"
    ∧ audit [permBy, permAx] twoAppVault = .ok "Missing secrets:\n• B y\n• A x\n"
    ∧ [permAx, permBy].Perm [permBy, permAx]
    ∧ ("Missing secrets:\n• A x\n• B y\n" : String)
        ≠ "Missing secrets:\n• B y\n• A x\n" := by
  refine ⟨rfl, rfl, List.Perm.swap _ _ _, ?_⟩
  decide

/-- C9: the formatter joins `unknown` entries with `"\n  "`, so every
entry after the first in the "Unknown secrets in Vault" section lacks its
bullet, unlike the claimed one-bullet-per-entry rendering; the missing
and incorrect sections are bulleted, ordered, and newline-terminated as
claimed. -/
theorem unknown_section_without_bullets :
    formatReport [] [] ["alpha k1", "beta k2"]
      = "Unknown secrets in Vault:\n• alpha k1\n  beta k2\n"
    ∧ formatReport [] [] ["alpha k1", "beta k2"]
      ≠ "Unknown secrets in Vault:\n• alpha k1\n• beta k2\n"
    ∧ formatReport ["m1", "m2"] ["i1"] []
      = "Missing secrets:\n• m1\n• m2\nIncorrect secrets:\n• i1\n" := by
  refine ⟨rfl, ?_, rfl⟩
  decide

/-- C10: an empty-string secret value behaves like an absent one during
resolution — an empty static value falls through to the other branches, a
generate requirement with an empty stored value behaves as with no stored
value (so it regenerates), and a derived generator whose source resolved
to the empty string stays unresolvable. -/
theorem empty_string_treated_as_absent :
    (∀ (config : Secret) (resolved : ResolvedSet) (current : Option String),
      config.value = some "" →
      resolve_secret config resolved current
        = resolve_secret { config with value := none } resolved current)
    ∧ (∀ (config : Secret) (resolved : ResolvedSet) (g : GenerateRules),
      truthy config.value = false → config.copy_rules = none →
      config.generate = some g →
      resolve_secret config resolved (some "")
        = resolve_secret config resolved none)
    ∧ (∀ (config : Secret) (resolved : ResolvedSet) (src : String)
        (gen : String → String) (other : ResolvedSecret) (current : Option String),
      truthy config.value = false → config.copy_rules = none →
      config.generate = some (.source src gen) → truthy current = false →
      lookupRS resolved config.application src = some other →
      other.value = some "" →
      resolve_secret config resolved current = none) := by
  refine ⟨?_, ?_, ?_⟩
  · intro config resolved current hv
    simp [resolve_secret, hv, truthy_some_empty, truthy_none]
  · intro config resolved g hv hcp hg
    cases g <;> simp [resolve_secret, hv, hcp, hg, truthy_some_empty, truthy_none]
  · intro config resolved src gen other current hv hcp hg hcur hlook hov
    simp [resolve_secret, hv, hcp, hg, hcur, hlook, hov, String.isEmpty]

/-- C10 witness: the three parts at concrete inputs — an empty static
value with copy rules resolves like a value-less requirement, an
independent generator regenerates over an empty stored value, and a
derived generator stays unresolved on an empty source value. -/
theorem empty_string_treated_as_absent_witness :
    resolve_secret emptyStaticCfg [] none
      = resolve_secret ⟨"E", "k", none, some ⟨"B", "y"⟩, none⟩ [] none
    ∧ resolve_secret genTokCfg [] (some "") = resolve_secret genTokCfg [] none
    ∧ resolve_secret hashReq emptySeedResolved none = none :=
  ⟨empty_string_treated_as_absent.1 emptyStaticCfg [] none rfl,
    empty_string_treated_as_absent.2.1 genTokCfg [] _ rfl rfl rfl,
    empty_string_treated_as_absent.2.2 hashReq emptySeedResolved "seed"
      upperFn ⟨"A", "seed", some ""⟩ none rfl rfl rfl rfl rfl rfl⟩

end Phalanx
